import Mathlib

/-!
Verification of the LUCI test-timing pipeline (`cherry/testtiming/luci.go`).

This file shallowly embeds the data model and the algorithms of the tool:
commit listing with token-chained pagination (`ListCommits`), the per-builder
build reconciliation performed inside `ReadBoard`'s concurrent units, the
dashboard matrix assembly, and the CSV extraction loop of `main`.

Modelling conventions:
- `time.Time` values are modelled as `Int` timestamps; `t1.Before(t2)` is `t1 < t2`.
- protobuf getters on absent messages return zero values, so optional
  sub-messages are `Option` with `""`-defaults where the code relies on that.
- `log.Fatal`/`log.Fatalf`/`panic` (process-terminating) and ordinary returned
  errors are both modelled with `Except String`/explicit outcome constructors;
  where the distinction matters (`main`), separate constructors are used.
- The concurrent per-builder fan-out of `ReadBoard` (errgroup) is modelled as a
  left-to-right sequential run of the units; "first observed error" is the
  first failing unit in builder order.
-/

namespace Luci

/-- Fixed ResultDB hostname (`resultDBHost` constant in the source). -/
def resultDBHost : String := "results.api.cr.dev"

/-- Build status enum (`bbpb.Status` values used by the tool). -/
inductive BStatus where
  | SCHEDULED
  | STARTED
  | SUCCESS
  | FAILURE
  | INFRA_FAILURE
  | CANCELED
deriving DecidableEq

/-- Test status enum (`rdbpb.TestStatus` values used by the tool). -/
inductive TestStatus where
  | STATUS_UNSPECIFIED
  | PASS
  | FAIL
  | CRASH
  | ABORT
  | SKIP
deriving DecidableEq

/-- Rendering of a test status as `fmt.Print` would show the enum name. -/
def TestStatus.render : TestStatus → String
  | .STATUS_UNSPECIFIED => "STATUS_UNSPECIFIED"
  | .PASS => "PASS"
  | .FAIL => "FAIL"
  | .CRASH => "CRASH"
  | .ABORT => "ABORT"
  | .SKIP => "SKIP"

/-- `BuilderConfigProperties` from the source (decoded builder config JSON). -/
structure BuilderConfigProperties where
  repo : String
  goBranch : String
  goarch : String
  goos : String
  knownIssue : Int
deriving DecidableEq

/-- `Builder`: a name plus its decoded configuration properties. -/
structure Builder where
  name : String
  config : BuilderConfigProperties
deriving DecidableEq

/-- `Commit`: hash and committer time, as produced by `ListCommits`. -/
structure Commit where
  hash : String
  time : Int
deriving DecidableEq

/-- One entry of a gitiles commit reference inside build output properties. -/
structure GitilesCommit where
  project : String
  id : String
deriving DecidableEq

/-- One element of the `sources` list in build output properties.  The code
accepts the commit reference under either of two key spellings
(`gitilesCommit` preferred, `gitiles_commit` as fallback). -/
structure SourceEntry where
  gitilesCommitCamel : Option GitilesCommit
  gitilesCommitSnake : Option GitilesCommit
deriving DecidableEq

/-- A log entry of a build or step (`name` and `view_url`). -/
structure LogEntry where
  name : String
  viewUrl : String
deriving DecidableEq

/-- A link found in the `failure.links` output property (`name` and `url`). -/
structure FailureLink where
  name : String
  url : String
deriving DecidableEq

/-- A build step: status plus its logs. -/
structure Step where
  status : BStatus
  logs : List LogEntry
deriving DecidableEq

/-- The subset of a raw `bbpb.Build` that `ReadBoard` requests via its field
mask and actually reads: id, builder reference, status, output properties
(sources, failure links, logs), steps, ResultDB linkage, end time. -/
structure RawBuild where
  id : Int
  status : BStatus
  sources : List SourceEntry
  failureLinks : List FailureLink
  outputLogs : List LogEntry
  steps : List Step
  resultdbHostname : String
  resultdbInvocation : String
  builderName : String
  endTime : Int
deriving DecidableEq

/-- `Failure` record (never populated by this tool; kept for data-model
fidelity). -/
structure Failure where
  testID : String
  status : TestStatus
  logURL : String
  logText : String
deriving DecidableEq

/-- `BuildResult` as assembled by `ReadBoard`. -/
structure BuildResult where
  id : Int
  status : BStatus
  commit : String
  time : Int
  goCommit : String
  buildTime : Int
  builder : String
  config : BuilderConfigProperties
  invocationID : String
  logURL : String
  logText : String
  stepLogURL : String
  stepLogText : String
  failures : List Failure
deriving DecidableEq

/-- A builder's reconciled map, keyed by commit hash (Go `map[string]*BuildResult`;
a missing key reads as `nil`). -/
abbrev BuildMap := String → Option BuildResult

/-- Resolve the gitiles commit of one source entry: key `gitilesCommit` first,
then `gitiles_commit`; proto getters on an absent message yield empty strings. -/
def sourceGitiles (e : SourceEntry) : GitilesCommit :=
  match e.gitilesCommitCamel with
  | some gc => gc
  | none => e.gitilesCommitSnake.getD ⟨"", ""⟩

/-- The commit-extraction loop of `ReadBoard`: scan the `sources` entries in
order; an entry whose project equals the dashboard repo sets the subject
commit, an entry whose project is `"go"` sets the companion go commit
(`case dash.Repo` is checked before `case "go"`, so for `repo = "go"` the
first branch wins); later entries overwrite earlier ones; any other project is
logged and ignored.  Returns `(commit, goCommit)`. -/
def extractCommits (repo : String) (entries : List SourceEntry) : String × String :=
  entries.foldl
    (fun acc e =>
      let gc := sourceGitiles e
      if gc.project = repo then (gc.id, acc.2)
      else if gc.project = "go" then (acc.1, gc.id)
      else acc)
    ("", "")

/-- Subject-repo commit hash resolved for a raw build. -/
def commitOf (repo : String) (b : RawBuild) : String :=
  (extractCommits repo b.sources).1

/-- Companion go commit hash resolved for a raw build. -/
def goCommitOf (repo : String) (b : RawBuild) : String :=
  (extractCommits repo b.sources).2

/-- Substring test on character lists (the semantics of Go `strings.Contains`). -/
def containsSeq (pat : List Char) : List Char → Bool
  | [] => pat.isEmpty
  | c :: t => pat.isPrefixOf (c :: t) || containsSeq pat t

/-- The `"(combined output)"` marker searched for among failure links. -/
def combinedPat : List Char := "(combined output)".toList

/-- URL of the first failure link whose name contains `"(combined output)"`
(the loop in `ReadBoard` breaks at the first match). -/
def firstCombined (links : List FailureLink) : Option String :=
  (links.find? (fun l => containsSeq combinedPat l.name.toList)).map (·.url)

/-- Whole-build log URL resolution for FAILURE builds, exactly as coded:
take the URL of the first `"(combined output)"` failure link; if the resulting
URL is still the empty string (no such link, or the link's `url` field is
empty), fall back to the view URL of the first output log named `"stderr"`. -/
def resolveLogURL (b : RawBuild) : String :=
  let u := (firstCombined b.failureLinks).getD ""
  if u = "" then
    ((b.outputLogs.find? (fun l => l.name == "stderr")).map (·.viewUrl)).getD ""
  else u

/-- Step-log candidate of one step: for a FAILURE step, the view URL of its
first log named `"stderr"` or `"output"`; otherwise nothing. -/
def stepLogOf (s : Step) : Option String :=
  if s.status = .FAILURE then
    (s.logs.find? (fun l => l.name == "stderr" || l.name == "output")).map (·.viewUrl)
  else none

/-- The `stepLoop` of `ReadBoard`: scan steps from last to first and stop at
the first step yielding a step-log candidate. -/
def stepLogScan (steps : List Step) : Option String :=
  steps.reverse.findSome? stepLogOf

/-- The `BuildResult` record constructed by `ReadBoard` for one raw build that
survived commit resolution, dedup and validation.  `time` (the commit time) is
zero here; it is stamped later during matrix assembly.  `logURL`/`stepLogURL`
are only filled for FAILURE builds. -/
def mkResult (bld : Builder) (b : RawBuild) (commit goCommit : String) : BuildResult :=
  { id := b.id
    status := b.status
    commit := commit
    time := 0
    goCommit := goCommit
    buildTime := b.endTime
    builder := bld.name
    config := bld.config
    invocationID := b.resultdbInvocation
    logURL := if b.status = .FAILURE then resolveLogURL b else ""
    logText := ""
    stepLogURL := if b.status = .FAILURE then (stepLogScan b.steps).getD "" else ""
    stepLogText := ""
    failures := [] }

/-- The dedup test of `ReadBoard`: a build is discarded iff a result is
already stored for its commit hash and the build's end time is strictly
earlier than the stored build's end time (`buildTime.Before(r0.BuildTime)`). -/
def isDup (m : BuildMap) (commit : String) (t : Int) : Bool :=
  match m commit with
  | some r0 => decide (t < r0.buildTime)
  | none => false

/-- Store a result in the commit-hash map (Go `buildMap[commit] = r`). -/
def updateMap (m : BuildMap) (k : String) (r : BuildResult) : BuildMap :=
  fun k' => if k' = k then some r else m k'

/-- One iteration of the per-builder build loop of `ReadBoard`:
1. resolve the commit hash from the build's sources; skip the build if empty;
2. discard the build if it loses the dedup comparison against a stored result;
3. validate the ResultDB hostname and the echoed builder name
   (`log.Fatalf`, modelled as `.error`, on mismatch);
4. construct the `BuildResult` and store it under the commit hash. -/
def processBuild (repo : String) (bld : Builder) (m : BuildMap) (b : RawBuild) :
    Except String BuildMap :=
  if commitOf repo b = "" then .ok m
  else if isDup m (commitOf repo b) b.endTime then .ok m
  else if b.resultdbHostname ≠ resultDBHost then .error "ResultDB host mismatch"
  else if b.builderName ≠ bld.name then .error "builder mismatch"
  else .ok (updateMap m (commitOf repo b) (mkResult bld b (commitOf repo b) (goCommitOf repo b)))

/-- Reconciliation fold from an arbitrary starting map (used to state the
loop invariants). -/
def reconFold (repo : String) (bld : Builder) (m0 : BuildMap) (l : List RawBuild) :
    Except String BuildMap :=
  l.foldlM (processBuild repo bld) m0

/-- A builder's whole reconciliation: fold the build list, left to right, into
the commit-hash map, starting from the empty map. -/
def reconcile (repo : String) (bld : Builder) (builds : List RawBuild) :
    Except String BuildMap :=
  reconFold repo bld (fun _ => none) builds

/-- Lookup into the reconciled map; `none` both for an absent key and for a
reconciliation that died fatally. -/
def reconLookup (repo : String) (bld : Builder) (builds : List RawBuild) (k : String) :
    Option BuildResult :=
  match reconcile repo bld builds with
  | .ok m => m k
  | .error _ => none

/-- A resolvable build for hash `k`: its extracted commit is `k` and nonempty. -/
def resolvesTo (repo : String) (b : RawBuild) (k : String) : Prop :=
  commitOf repo b = k ∧ k ≠ ""

/-- The two invariants `ReadBoard` checks fatally on every stored build. -/
def validBuild (bName : String) (b : RawBuild) : Prop :=
  b.resultdbHostname = resultDBHost ∧ b.builderName = bName

instance (bName : String) (b : RawBuild) : Decidable (validBuild bName b) := by
  unfold validBuild
  infer_instance

instance (repo : String) (b : RawBuild) (k : String) : Decidable (resolvesTo repo b k) := by
  unfold resolvesTo
  infer_instance

/-! ## `ListCommits`: branch selection and token-chained pagination -/

/-- The branch whose log `ListCommits` requests: `"master"` unless the repo is
exactly `"go"`, in which case the `goBranch` argument is used. -/
def listCommitsBranch (repo goBranch : String) : String :=
  if repo = "go" then goBranch else "master"

/-- The `Committish` field of the gitiles `LogRequest` built by `ListCommits`. -/
def listCommitsCommittish (repo goBranch : String) : String :=
  "refs/heads/" ++ listCommitsBranch repo goBranch

/-- One page of the upstream commit log: its commits and the continuation
token the server returned with it. -/
structure LogPage where
  commits : List Commit
  nextPageToken : String
deriving DecidableEq

/-- The inner `for` loop of `ListCommits` over one page: collect commits until
one with time strictly before `since` is hit; the `Bool` reports whether the
`goto done` fired. -/
def pageScan (since : Int) : List Commit → List Commit × Bool
  | [] => ([], false)
  | c :: cs =>
    if c.time < since then ([], true)
    else
      let r := pageScan since cs
      (c :: r.1, r.2)

/-- `ListCommits` over the successive pages the server would return: consume a
page; if its scan hit a commit before `since`, stop the entire listing;
otherwise continue to the next page only while the continuation token is
nonempty. -/
def listCommitsModel (since : Int) : List LogPage → List Commit
  | [] => []
  | p :: ps =>
    let r := pageScan since p.commits
    if r.2 then r.1
    else if p.nextPageToken ≠ "" then r.1 ++ listCommitsModel since ps
    else r.1

/-! ## `NewLUCIClient` -/

/-- `NewLUCIClient`'s treatment of its `nProc` argument: panic (modelled as
`.error`) for a non-positive value, otherwise a client whose concurrency bound
(`nProc` field) is the argument. -/
def newLUCIClientNProc (nProc : Int) : Except String Int :=
  if nProc < 1 then .error "nProc non-positive, want 1 or higher" else .ok nProc

/-! ## `ReadBoard`: per-builder units, error handling, matrix assembly -/

/-- Outcome of one concurrent per-builder unit.  `uerr` is an error returned
to the errgroup (a failed `GetBuilds` call); `ufatal` is a `log.Fatalf` fired
inside reconciliation, which kills the whole process. -/
inductive URes where
  | uerr (e : String)
  | ufatal (e : String)
  | uok (m : BuildMap)

/-- One per-builder unit: fetch the builder's builds, then reconcile them. -/
def runUnit (repo : String) (bld : Builder) (gb : String → Except String (List RawBuild)) :
    URes :=
  match gb bld.name with
  | .error e => .uerr e
  | .ok builds =>
    match reconcile repo bld builds with
    | .error e => .ufatal e
    | .ok m => .uok m

/-- Joint outcome of all units, taken in builder order (sequential model of
the errgroup): the first non-ok unit decides. -/
inductive UnitsRes where
  | firstFatal (e : String)
  | firstErr (e : String)
  | allOk (ms : List BuildMap)

/-- Collect unit outcomes in order; stop at the first fatal or error. -/
def collectUnits : List URes → UnitsRes
  | [] => .allOk []
  | .ufatal e :: _ => .firstFatal e
  | .uerr e :: _ => .firstErr e
  | .uok m :: rest =>
    match collectUnits rest with
    | .allOk ms => .allOk (m :: ms)
    | r => r

/-- Outcome of `ReadBoard`.  `fatalExit` models a `log.Fatalf` inside a unit
(the process dies, `ReadBoard` never returns); `errReturn` carries the builder
list already stored on the dashboard and the returned error — in this case the
`Results` matrix is never assembled (stays nil), which is why this constructor
carries no results; `done` carries the assembled matrix. -/
inductive BoardOutcome where
  | fatalExit (e : String)
  | errReturn (builders : List Builder) (e : String)
  | done (builders : List Builder) (results : List (List (Option BuildResult)))
deriving DecidableEq

/-- The final gathering loop of `ReadBoard`: for each builder's map, one row;
for each commit, look its hash up in the map; a hit is stamped with the commit
list's authoritative time and placed in the cell. -/
def assemble (commits : List Commit) (ms : List BuildMap) :
    List (List (Option BuildResult)) :=
  ms.map (fun m => commits.map (fun c => (m c.hash).map (fun r => { r with time := c.time })))

/-- `ReadBoard` given its environment: the builder-listing outcome `lb`, the
already-fetched commit list, and the build-search service `gb`.  On a
`ListBuilders` error the dashboard's builder list is still nil. -/
def runBoard (repo : String) (lb : Except String (List Builder)) (commits : List Commit)
    (gb : String → Except String (List RawBuild)) : BoardOutcome :=
  match lb with
  | .error e => .errReturn [] e
  | .ok builders =>
    match collectUnits (builders.map (fun bld => runUnit repo bld gb)) with
    | .firstFatal e => .fatalExit e
    | .firstErr e => .errReturn builders e
    | .allOk ms => .done builders (assemble commits ms)

/-! ## `main`: test-timing extraction and CSV emission -/

/-- A test result returned by the ResultDB query: status and duration in
seconds (the rendered numeric value). -/
structure TestResult where
  status : TestStatus
  durationSec : Int
deriving DecidableEq

/-- `shortHash`: first 8 characters of the hash, or the whole string. -/
def shortHash (s : String) : String :=
  if s.length > 8 then (s.toList.take 8).asString else s

/-- One CSV line, as the list of its comma-separated fields:
commit short hash, commit time, the builder name only in multi-builder mode,
status, then the pass-duration field followed by the fail-duration field —
exactly one of the two is filled, depending on PASS. -/
def csvLine (multi : Bool) (r : BuildResult) (bName : String) (t : TestResult) :
    List String :=
  [shortHash r.commit, toString r.time]
  ++ (if multi then [bName] else [])
  ++ [t.status.render]
  ++ (if t.status = .PASS then [toString t.durationSec, ""] else ["", toString t.durationSec])

/-- Lines emitted for one dashboard cell: SKIP results are dropped, every
other result yields one line. -/
def emitLines (multi : Bool) (r : BuildResult) (bName : String) (trs : List TestResult) :
    List (List String) :=
  (trs.filter (fun t => decide (t.status ≠ .SKIP))).map (csvLine multi r bName)

/-- The extraction loop of `main`: walk the matrix row-major (builder, then
commit); for each non-empty cell query the result store by the cell's
invocation ID and emit its lines.  The builder column is enabled iff more than
one builder is in scope. -/
def extractorOutput (builders : List Builder) (results : List (List (Option BuildResult)))
    (query : String → List TestResult) : List (List String) :=
  let multi := decide (1 < builders.length)
  ((builders.zip results).map (fun br =>
    (br.2.map (fun cell =>
      match cell with
      | none => []
      | some r => emitLines multi r br.1.name (query r.invocationID))).flatten)).flatten

/-- Observable outcome of `main`: a `log.Fatal` (clean fatal error handling),
a runtime panic, or the emitted CSV lines. -/
inductive MainOutcome where
  | fatalLog (e : String)
  | panicked (e : String)
  | output (lines : List (List String))
deriving DecidableEq

/-- Whether a `main` outcome is a `log.Fatal`-style fatal error. -/
def isFatalLog : MainOutcome → Bool
  | .fatalLog _ => true
  | .panicked _ => false
  | .output _ => false

/-- `main` after flag parsing: fail fatally if the test flag is unset; run
`ReadBoard` and — as in the source — discard its returned error; then run the
extraction loop over `dash.Builders` and `dash.Results`.  When `ReadBoard`
returned an error the matrix is nil, so with at least one builder the loop's
`dash.Results[i]` indexing panics; with no builders it prints nothing. -/
def mainModel (testFlag repo : String) (lb : Except String (List Builder))
    (commits : List Commit) (gb : String → Except String (List RawBuild))
    (query : String → List TestResult) : MainOutcome :=
  if testFlag = "" then .fatalLog "test name unset"
  else
    match runBoard repo lb commits gb with
    | .fatalExit e => .fatalLog e
    | .errReturn builders _ =>
      if builders.isEmpty then .output []
      else .panicked "index out of range"
    | .done builders results => .output (extractorOutput builders results query)

end Luci

namespace Luci

/-- Whether a reconciliation run completed without a fatal error. -/
def reconcileOk (repo : String) (bld : Builder) (builds : List RawBuild) : Bool :=
  match reconcile repo bld builds with
  | .ok _ => true
  | .error _ => false

def exCfg : BuilderConfigProperties := ⟨"", "", "", "", 0⟩

def exBld : Builder := ⟨"bb", exCfg⟩

def exSrc : List SourceEntry := [⟨some ⟨"xrepo", "h1"⟩, none⟩]

def exBuild1 : RawBuild :=
  { id := 1, status := .SUCCESS, sources := exSrc, failureLinks := [], outputLogs := [],
    steps := [], resultdbHostname := resultDBHost, resultdbInvocation := "inv1",
    builderName := "bb", endTime := 100 }

def exBuild2 : RawBuild := { exBuild1 with id := 2, resultdbInvocation := "inv2" }

def exBuild2b : RawBuild := { exBuild2 with endTime := 150 }

def exBadBuild : RawBuild :=
  { exBuild1 with id := 3, resultdbHostname := "evil.example.com", endTime := 50 }

def exCommitList : List Commit := [⟨"h1", 5⟩, ⟨"h2", 3⟩]

def exGb : String → Except String (List RawBuild) := fun _ => .ok [exBuild1]

def exResults : List (List (Option BuildResult)) :=
  [[some { mkResult exBld exBuild1 "h1" "" with time := 5 }, none]]

def exPages : List LogPage :=
  [⟨[⟨"c1", 10⟩, ⟨"c2", 5⟩], "tok"⟩, ⟨[⟨"c3", 4⟩], ""⟩]

def exFailBuild : RawBuild :=
  { exBuild1 with
    status := .FAILURE,
    failureLinks := [⟨"foo (combined output)", ""⟩],
    outputLogs := [⟨"stderr", "V"⟩],
    steps := [⟨.SUCCESS, [⟨"stderr", "s0"⟩]⟩, ⟨.FAILURE, [⟨"other", "x"⟩, ⟨"output", "s1"⟩]⟩,
              ⟨.FAILURE, []⟩] }

def exQuery : String → List TestResult := fun _ => [⟨.PASS, 7⟩, ⟨.SKIP, 1⟩, ⟨.FAIL, 9⟩]

/-! ## Lemmas about the reconciliation fold -/

theorem mkResult_buildTime (bld : Builder) (b : RawBuild) (c g : String) :
    (mkResult bld b c g).buildTime = b.endTime := rfl

theorem mkResult_builder (bld : Builder) (b : RawBuild) (c g : String) :
    (mkResult bld b c g).builder = bld.name := rfl

theorem mkResult_commit (bld : Builder) (b : RawBuild) (c g : String) :
    (mkResult bld b c g).commit = c := rfl

theorem isDup_of_none (m : BuildMap) (k : String) (t : Int) (h : m k = none) :
    isDup m k t = false := by
  unfold isDup; rw [h]

theorem le_of_isDup_false (m : BuildMap) (k : String) (t : Int) (r0 : BuildResult)
    (h : isDup m k t = false) (h0 : m k = some r0) : r0.buildTime ≤ t := by
  unfold isDup at h
  rw [h0] at h
  exact Int.not_lt.mp (of_decide_eq_false h)

theorem processBuild_skip (repo : String) (bld : Builder) (m : BuildMap) (b : RawBuild)
    (h : commitOf repo b = "") : processBuild repo bld m b = .ok m := by
  simp [processBuild, h]

theorem processBuild_dup (repo : String) (bld : Builder) (m : BuildMap) (b : RawBuild)
    (h1 : commitOf repo b ≠ "") (h2 : isDup m (commitOf repo b) b.endTime = true) :
    processBuild repo bld m b = .ok m := by
  simp [processBuild, h1, h2]

theorem processBuild_store (repo : String) (bld : Builder) (m : BuildMap) (b : RawBuild)
    (h1 : commitOf repo b ≠ "") (h2 : isDup m (commitOf repo b) b.endTime = false)
    (h3 : validBuild bld.name b) :
    processBuild repo bld m b =
      .ok (updateMap m (commitOf repo b) (mkResult bld b (commitOf repo b) (goCommitOf repo b))) := by
  obtain ⟨h4, h5⟩ := h3
  simp [processBuild, h1, h2, h4, h5]

theorem processBuild_err (repo : String) (bld : Builder) (m : BuildMap) (b : RawBuild)
    (h1 : commitOf repo b ≠ "") (h2 : isDup m (commitOf repo b) b.endTime = false)
    (h3 : ¬ validBuild bld.name b) :
    ∃ e, processBuild repo bld m b = .error e := by
  rw [validBuild, not_and_or] at h3
  rcases h3 with h | h
  · exact ⟨"ResultDB host mismatch", by simp [processBuild, h1, h2, h]⟩
  · by_cases hh : b.resultdbHostname = resultDBHost
    · exact ⟨"builder mismatch", by simp [processBuild, h1, h2, hh, h]⟩
    · exact ⟨"ResultDB host mismatch", by simp [processBuild, h1, h2, hh]⟩

theorem processBuild_ok_cases (repo : String) (bld : Builder) (m : BuildMap) (b : RawBuild)
    (m' : BuildMap) (h : processBuild repo bld m b = .ok m') :
    (m' = m ∧ (commitOf repo b = "" ∨ isDup m (commitOf repo b) b.endTime = true)) ∨
    (commitOf repo b ≠ "" ∧ isDup m (commitOf repo b) b.endTime = false ∧
      validBuild bld.name b ∧
      m' = updateMap m (commitOf repo b) (mkResult bld b (commitOf repo b) (goCommitOf repo b))) := by
  by_cases h1 : commitOf repo b = ""
  · rw [processBuild_skip repo bld m b h1] at h
    exact Or.inl ⟨(Except.ok.inj h).symm, Or.inl h1⟩
  · by_cases h2 : isDup m (commitOf repo b) b.endTime = true
    · rw [processBuild_dup repo bld m b h1 h2] at h
      exact Or.inl ⟨(Except.ok.inj h).symm, Or.inr h2⟩
    · rw [Bool.not_eq_true] at h2
      by_cases h3 : b.resultdbHostname = resultDBHost
      · by_cases h4 : b.builderName = bld.name
        · rw [processBuild_store repo bld m b h1 h2 ⟨h3, h4⟩] at h
          exact Or.inr ⟨h1, h2, ⟨h3, h4⟩, (Except.ok.inj h).symm⟩
        · exfalso; simp [processBuild, h1, h2, h3, h4] at h
      · exfalso; simp [processBuild, h1, h2, h3] at h

theorem reconFold_nil (repo : String) (bld : Builder) (m0 : BuildMap) :
    reconFold repo bld m0 [] = .ok m0 := rfl

theorem reconFold_cons (repo : String) (bld : Builder) (m0 : BuildMap) (b : RawBuild)
    (l : List RawBuild) :
    reconFold repo bld m0 (b :: l) =
      (processBuild repo bld m0 b).bind (fun m1 => reconFold repo bld m1 l) := rfl

theorem reconFold_cons_ok (repo : String) (bld : Builder) (m0 m1 : BuildMap) (b : RawBuild)
    (l : List RawBuild) (h : processBuild repo bld m0 b = .ok m1) :
    reconFold repo bld m0 (b :: l) = reconFold repo bld m1 l := by
  rw [reconFold_cons, h]; rfl

/-- If every resolvable build passes validation, the fold never dies. -/
theorem reconFold_ok (repo : String) (bld : Builder) (l : List RawBuild) :
    ∀ m0 : BuildMap, (∀ b ∈ l, commitOf repo b ≠ "" → validBuild bld.name b) →
      ∃ m, reconFold repo bld m0 l = .ok m := by
  induction l with
  | nil => exact fun m0 _ => ⟨m0, rfl⟩
  | cons b l ih =>
    intro m0 hv
    have hb : commitOf repo b ≠ "" → validBuild bld.name b := hv b (List.mem_cons_self b l)
    have hrest : ∀ b' ∈ l, commitOf repo b' ≠ "" → validBuild bld.name b' :=
      fun b' hb' => hv b' (List.mem_cons_of_mem b hb')
    by_cases h1 : commitOf repo b = ""
    · obtain ⟨m, hm⟩ := ih m0 hrest
      exact ⟨m, by rw [reconFold_cons_ok repo bld m0 m0 b l (processBuild_skip repo bld m0 b h1), hm]⟩
    · by_cases h2 : isDup m0 (commitOf repo b) b.endTime = true
      · obtain ⟨m, hm⟩ := ih m0 hrest
        exact ⟨m, by rw [reconFold_cons_ok repo bld m0 m0 b l (processBuild_dup repo bld m0 b h1 h2), hm]⟩
      · rw [Bool.not_eq_true] at h2
        obtain ⟨m, hm⟩ := ih (updateMap m0 (commitOf repo b)
          (mkResult bld b (commitOf repo b) (goCommitOf repo b))) hrest
        exact ⟨m, by
          rw [reconFold_cons_ok repo bld m0 _ b l (processBuild_store repo bld m0 b h1 h2 (hb h1)), hm]⟩

/-- A stored entry survives the rest of the fold, with a never-decreasing
build-end time. -/
theorem reconFold_mono (repo : String) (bld : Builder) (l : List RawBuild) :
    ∀ (m0 m : BuildMap), reconFold repo bld m0 l = .ok m →
      ∀ k r0, m0 k = some r0 → ∃ r, m k = some r ∧ r0.buildTime ≤ r.buildTime := by
  induction l with
  | nil =>
    intro m0 m h k r0 h0
    rw [reconFold_nil] at h
    cases h
    exact ⟨r0, h0, le_refl _⟩
  | cons b l ih =>
    intro m0 m h k r0 h0
    rw [reconFold_cons] at h
    cases hpb : processBuild repo bld m0 b with
    | error e => rw [hpb] at h; exact absurd h (by simp [Except.bind])
    | ok m1 =>
      rw [hpb] at h
      have h' : reconFold repo bld m1 l = .ok m := h
      rcases processBuild_ok_cases repo bld m0 b m1 hpb with ⟨rfl, hwhy⟩ | ⟨h1, h2, h3, rfl⟩
      · exact ih _ m h' k r0 h0
      · by_cases hk : k = commitOf repo b
        · have hle : r0.buildTime ≤ b.endTime :=
            le_of_isDup_false m0 (commitOf repo b) b.endTime r0 h2 (hk ▸ h0)
          have hm1 : updateMap m0 (commitOf repo b)
              (mkResult bld b (commitOf repo b) (goCommitOf repo b)) k =
              some (mkResult bld b (commitOf repo b) (goCommitOf repo b)) := by
            simp [updateMap, hk]
          obtain ⟨r, hr, hler⟩ := ih _ m h' k _ hm1
          exact ⟨r, hr, le_trans hle (by rw [mkResult_buildTime] at hler; exact hler)⟩
        · have hm1 : updateMap m0 (commitOf repo b)
              (mkResult bld b (commitOf repo b) (goCommitOf repo b)) k = some r0 := by
            simp [updateMap, hk]; exact h0
          exact ih _ m h' k r0 hm1

theorem isDup_true (m : BuildMap) (k : String) (t : Int) (h : isDup m k t = true) :
    ∃ r0, m k = some r0 ∧ t < r0.buildTime := by
  unfold isDup at h
  cases hm : m k with
  | none => rw [hm] at h; cases h
  | some r0 => rw [hm] at h; exact ⟨r0, rfl, of_decide_eq_true h⟩

/-- Every stored entry either predates the fold or is the constructed result
of some resolvable build of the list. -/
theorem reconFold_provenance (repo : String) (bld : Builder) (l : List RawBuild) :
    ∀ (m0 m : BuildMap), reconFold repo bld m0 l = .ok m → ∀ k,
      m k = m0 k ∨
      ∃ b, b ∈ l ∧ commitOf repo b = k ∧ k ≠ "" ∧
        m k = some (mkResult bld b (commitOf repo b) (goCommitOf repo b)) := by
  induction l with
  | nil =>
    intro m0 m h k
    rw [reconFold_nil] at h
    cases h
    exact Or.inl rfl
  | cons b l ih =>
    intro m0 m h k
    rw [reconFold_cons] at h
    cases hpb : processBuild repo bld m0 b with
    | error e => rw [hpb] at h; exact absurd h (by simp [Except.bind])
    | ok m1 =>
      rw [hpb] at h
      have h' : reconFold repo bld m1 l = .ok m := h
      rcases processBuild_ok_cases repo bld m0 b m1 hpb with ⟨rfl, hwhy⟩ | ⟨h1, h2, h3, rfl⟩
      · rcases ih _ m h' k with heq | ⟨b', hb', hc, hk, hm⟩
        · exact Or.inl heq
        · exact Or.inr ⟨b', List.mem_cons_of_mem b hb', hc, hk, hm⟩
      · rcases ih _ m h' k with heq | ⟨b', hb', hc, hk, hm⟩
        · by_cases hk : k = commitOf repo b
          · refine Or.inr ⟨b, List.mem_cons_self b l, hk.symm, fun hke => h1 (hk ▸ hke ▸ hk.symm ▸ rfl), ?_⟩
            rw [heq]
            simp [updateMap, hk]
          · refine Or.inl ?_
            rw [heq]
            simp [updateMap, hk]
        · exact Or.inr ⟨b', List.mem_cons_of_mem b hb', hc, hk, hm⟩

/-- The stored entry for a hash dominates the end time of every build of the
list resolving to that hash. -/
theorem reconFold_max (repo : String) (bld : Builder) (l : List RawBuild) :
    ∀ (m0 m : BuildMap), reconFold repo bld m0 l = .ok m → ∀ k r, m k = some r →
      ∀ b ∈ l, commitOf repo b = k → k ≠ "" → b.endTime ≤ r.buildTime := by
  induction l with
  | nil => intro m0 m h k r hr b hb; simp at hb
  | cons b0 l ih =>
    intro m0 m h k r hr b hb hc hk
    rw [reconFold_cons] at h
    cases hpb : processBuild repo bld m0 b0 with
    | error e => rw [hpb] at h; exact absurd h (by simp [Except.bind])
    | ok m1 =>
      rw [hpb] at h
      have h' : reconFold repo bld m1 l = .ok m := h
      rcases List.mem_cons.mp hb with rfl | hbl
      · rcases processBuild_ok_cases repo bld m0 b m1 hpb with ⟨rfl, hwhy⟩ | ⟨h1, h2, h3, rfl⟩
        · rcases hwhy with hskip | hdup
          · exact absurd (hc.symm.trans hskip) hk
          · obtain ⟨r0, hm0, hlt⟩ := isDup_true _ (commitOf repo b) b.endTime hdup
            obtain ⟨r', hr', hle⟩ := reconFold_mono repo bld l _ m h' (commitOf repo b) r0 hm0
            rw [hc] at hr'
            rw [hr] at hr'
            cases hr'
            exact le_trans (le_of_lt hlt) hle
        · have hm1 : updateMap m0 (commitOf repo b)
              (mkResult bld b (commitOf repo b) (goCommitOf repo b)) k =
              some (mkResult bld b (commitOf repo b) (goCommitOf repo b)) := by
            simp [updateMap, hc]
          obtain ⟨r', hr', hle⟩ := reconFold_mono repo bld l _ m h' k _ hm1
          rw [hr] at hr'
          cases hr'
          rw [mkResult_buildTime] at hle
          exact hle
      · exact ih _ m h' k r hr b hbl hc hk

/-- If the final map misses a hash, the start map missed it and no build of
the list resolves to it. -/
theorem reconFold_none (repo : String) (bld : Builder) (l : List RawBuild) :
    ∀ (m0 m : BuildMap), reconFold repo bld m0 l = .ok m → ∀ k, m k = none →
      m0 k = none ∧ ∀ b ∈ l, ¬(commitOf repo b = k ∧ k ≠ "") := by
  induction l with
  | nil =>
    intro m0 m h k hk
    rw [reconFold_nil] at h
    cases h
    exact ⟨hk, by simp⟩
  | cons b0 l ih =>
    intro m0 m h k hk
    rw [reconFold_cons] at h
    cases hpb : processBuild repo bld m0 b0 with
    | error e => rw [hpb] at h; exact absurd h (by simp [Except.bind])
    | ok m1 =>
      rw [hpb] at h
      have h' : reconFold repo bld m1 l = .ok m := h
      obtain ⟨hm1, hrest⟩ := ih _ m h' k hk
      rcases processBuild_ok_cases repo bld m0 b0 m1 hpb with ⟨rfl, hwhy⟩ | ⟨h1, h2, h3, heq⟩
      · refine ⟨hm1, fun b hb => ?_⟩
        rcases List.mem_cons.mp hb with rfl | hbl
        · rcases hwhy with hskip | hdup
          · rintro ⟨hc, hke⟩
            exact hke (hc ▸ hskip)
          · rintro ⟨hc, hke⟩
            obtain ⟨r0, hm0, _⟩ := isDup_true _ (commitOf repo b) b.endTime hdup
            rw [hc, hm1] at hm0
            cases hm0
        · exact hrest b hbl
      · subst heq
        have hkc : k ≠ commitOf repo b0 := by
          intro hkc
          rw [hkc] at hm1
          simp [updateMap] at hm1
        have hm0k : m0 k = none := by
          have : updateMap m0 (commitOf repo b0)
              (mkResult bld b0 (commitOf repo b0) (goCommitOf repo b0)) k = m0 k := by
            simp [updateMap, hkc]
          rw [← this]
          exact hm1
        refine ⟨hm0k, fun b hb => ?_⟩
        rcases List.mem_cons.mp hb with rfl | hbl
        · rintro ⟨hc, hke⟩
          exact hkc hc.symm
        · exact hrest b hbl

/-- Characterisation of a successful reconciliation at a stored hash: the
entry is the constructed result of a resolvable build of the list whose end
time dominates every build resolving to that hash. -/
theorem reconcile_some (repo : String) (bld : Builder) (builds : List RawBuild) (m : BuildMap)
    (h : reconcile repo bld builds = .ok m) (k : String) (r : BuildResult) (hr : m k = some r) :
    ∃ b, b ∈ builds ∧ commitOf repo b = k ∧ k ≠ "" ∧
      r = mkResult bld b (commitOf repo b) (goCommitOf repo b) ∧
      ∀ b' ∈ builds, commitOf repo b' = k → b'.endTime ≤ b.endTime := by
  rcases reconFold_provenance repo bld builds _ m h k with heq | ⟨b, hb, hc, hk, hm⟩
  · rw [heq] at hr; cases hr
  · rw [hm] at hr
    cases hr
    refine ⟨b, hb, hc, hk, rfl, fun b' hb' hc' => ?_⟩
    have := reconFold_max repo bld builds _ m h k _ hm b' hb' hc' hk
    rw [mkResult_buildTime] at this
    exact this

/-- A resolvable build guarantees its hash is present in the final map. -/
theorem reconcile_mem_some (repo : String) (bld : Builder) (builds : List RawBuild) (m : BuildMap)
    (h : reconcile repo bld builds = .ok m) (b : RawBuild) (hb : b ∈ builds) (k : String)
    (hc : commitOf repo b = k) (hk : k ≠ "") : m k ≠ none := by
  intro hnone
  obtain ⟨_, hno⟩ := reconFold_none repo bld builds _ m h k hnone
  exact hno b hb ⟨hc, hk⟩


end Luci

namespace Luci

theorem reconLookup_eq (repo : String) (bld : Builder) (builds : List RawBuild) (m : BuildMap)
    (k : String) (h : reconcile repo bld builds = .ok m) :
    reconLookup repo bld builds k = m k := by
  unfold reconLookup
  rw [h]

/-- C2 counterexample: two builds for the same builder and commit hash with
exactly equal build-end times; the reconciled entry is build 2 — the newly
observed build — not the already-stored build 1, contradicting the claim that
ties favor the already-stored entry. -/
theorem c2_counterexample :
    exBuild1.endTime = exBuild2.endTime ∧
    commitOf "xrepo" exBuild1 = commitOf "xrepo" exBuild2 ∧
    (reconLookup "xrepo" exBld [exBuild1, exBuild2] "h1").map (·.id) = some 2 ∧
    (reconLookup "xrepo" exBld [exBuild1, exBuild2] "h1").map (·.id) ≠ some 1 := by
  decide

/-- C2 (amended): during reconciliation of one builder's build list, when two
builds resolve to the same commit hash, the one with the greater build-end
time is kept; when the build-end times are exactly equal, the newly observed
build replaces the already-stored entry (ties favor the later-processed
build). -/
theorem c2_amended_dedup (repo : String) (bld : Builder) (b1 b2 : RawBuild)
    (hk : commitOf repo b2 = commitOf repo b1) (hne : commitOf repo b1 ≠ "")
    (hv1 : validBuild bld.name b1) (hv2 : validBuild bld.name b2) :
    reconLookup repo bld [b1, b2] (commitOf repo b1) =
      some (if b2.endTime < b1.endTime
            then mkResult bld b1 (commitOf repo b1) (goCommitOf repo b1)
            else mkResult bld b2 (commitOf repo b2) (goCommitOf repo b2)) := by
  have hne2 : commitOf repo b2 ≠ "" := by rw [hk]; exact hne
  have hstep1 := processBuild_store repo bld (fun _ => none) b1 hne (isDup_of_none _ _ _ rfl) hv1
  have hm1k : updateMap (fun _ => none) (commitOf repo b1)
      (mkResult bld b1 (commitOf repo b1) (goCommitOf repo b1)) (commitOf repo b2) =
      some (mkResult bld b1 (commitOf repo b1) (goCommitOf repo b1)) := by
    simp [updateMap, hk]
  have hfold1 : reconcile repo bld [b1, b2] =
      reconFold repo bld (updateMap (fun _ => none) (commitOf repo b1)
        (mkResult bld b1 (commitOf repo b1) (goCommitOf repo b1))) [b2] :=
    reconFold_cons_ok repo bld _ _ b1 [b2] hstep1
  by_cases hlt : b2.endTime < b1.endTime
  · have hdup : isDup (updateMap (fun _ => none) (commitOf repo b1)
        (mkResult bld b1 (commitOf repo b1) (goCommitOf repo b1)))
        (commitOf repo b2) b2.endTime = true := by
      unfold isDup
      rw [hm1k]
      show decide (b2.endTime < (mkResult bld b1 (commitOf repo b1) (goCommitOf repo b1)).buildTime) = true
      rw [mkResult_buildTime]
      exact decide_eq_true hlt
    have hfold2 : reconcile repo bld [b1, b2] =
        .ok (updateMap (fun _ => none) (commitOf repo b1)
          (mkResult bld b1 (commitOf repo b1) (goCommitOf repo b1))) := by
      rw [hfold1, reconFold_cons_ok repo bld _ _ b2 [] (processBuild_dup repo bld _ b2 hne2 hdup)]
      exact reconFold_nil repo bld _
    rw [reconLookup_eq repo bld [b1, b2] _ (commitOf repo b1) hfold2, if_pos hlt]
    simp [updateMap]
  · have hnd : isDup (updateMap (fun _ => none) (commitOf repo b1)
        (mkResult bld b1 (commitOf repo b1) (goCommitOf repo b1)))
        (commitOf repo b2) b2.endTime = false := by
      unfold isDup
      rw [hm1k]
      show decide (b2.endTime < (mkResult bld b1 (commitOf repo b1) (goCommitOf repo b1)).buildTime) = false
      rw [mkResult_buildTime]
      exact decide_eq_false hlt
    have hstep2 := processBuild_store repo bld (updateMap (fun _ => none) (commitOf repo b1)
      (mkResult bld b1 (commitOf repo b1) (goCommitOf repo b1))) b2 hne2 hnd hv2
    have hfold2 : reconcile repo bld [b1, b2] =
        .ok (updateMap (updateMap (fun _ => none) (commitOf repo b1)
          (mkResult bld b1 (commitOf repo b1) (goCommitOf repo b1))) (commitOf repo b2)
          (mkResult bld b2 (commitOf repo b2) (goCommitOf repo b2))) := by
      rw [hfold1, reconFold_cons_ok repo bld _ _ b2 [] hstep2]
      exact reconFold_nil repo bld _
    rw [reconLookup_eq repo bld [b1, b2] _ (commitOf repo b1) hfold2, if_neg hlt]
    simp [updateMap, hk]

/-- C2 witness: the amended dedup rule evaluated on the concrete tied pair. -/
theorem c2_amended_witness :
    reconLookup "xrepo" exBld [exBuild1, exBuild2] (commitOf "xrepo" exBuild1) =
      some (mkResult exBld exBuild2 (commitOf "xrepo" exBuild2) (goCommitOf "xrepo" exBuild2)) := by
  have h := c2_amended_dedup "xrepo" exBld exBuild1 exBuild2 (by decide) (by decide)
    (by decide) (by decide)
  rw [if_neg (by decide : ¬ exBuild2.endTime < exBuild1.endTime)] at h
  exact h

end Luci

namespace Luci

/-- C3 counterexample: the two orders of the same two-build list (same
commit hash, equal build-end times, different build IDs) reconcile to
different maps, contradicting order independence for every permutation. -/
theorem c3_counterexample :
    List.Perm [exBuild1, exBuild2] [exBuild2, exBuild1] ∧
    reconLookup "xrepo" exBld [exBuild1, exBuild2] "h1" ≠
      reconLookup "xrepo" exBld [exBuild2, exBuild1] "h1" := by
  constructor
  · decide
  · decide

/-- C3 (amended): for one builder's raw build list in which every resolvable
build passes validation and no two distinct builds sharing a commit hash have
equal build-end times, reconciliation produces the same commit-hash map for
every permutation of the list, and each retained entry is the constructed
result of a build with the greatest build-end time among all builds resolving
to its hash.  (With exactly tied end times the retained build depends on the
input order, as the counterexample shows.) -/
theorem c3_amended_order_independence (repo : String) (bld : Builder) (l1 l2 : List RawBuild)
    (hperm : List.Perm l1 l2)
    (hv : ∀ b ∈ l1, commitOf repo b ≠ "" → validBuild bld.name b)
    (hdist : ∀ b ∈ l1, ∀ b' ∈ l1, commitOf repo b = commitOf repo b' →
      b.endTime = b'.endTime → b = b') :
    reconcile repo bld l1 = reconcile repo bld l2 ∧
    (∀ k r, reconLookup repo bld l1 k = some r →
      ∃ b, b ∈ l1 ∧ commitOf repo b = k ∧ k ≠ "" ∧
        r = mkResult bld b (commitOf repo b) (goCommitOf repo b) ∧
        ∀ b' ∈ l1, commitOf repo b' = k → b'.endTime ≤ b.endTime) := by
  have hv2 : ∀ b ∈ l2, commitOf repo b ≠ "" → validBuild bld.name b :=
    fun b hb => hv b (hperm.mem_iff.mpr hb)
  obtain ⟨m1, hm1⟩ := reconFold_ok repo bld l1 (fun _ => none) hv
  obtain ⟨m2, hm2⟩ := reconFold_ok repo bld l2 (fun _ => none) hv2
  have hrec1 : reconcile repo bld l1 = .ok m1 := hm1
  have hrec2 : reconcile repo bld l2 = .ok m2 := hm2
  constructor
  · rw [hrec1, hrec2]
    have : m1 = m2 := by
      funext k
      cases hk1 : m1 k with
      | none =>
        cases hk2 : m2 k with
        | none => rfl
        | some r2 =>
          obtain ⟨b2, hb2, hc2, hke, _, _⟩ := reconcile_some repo bld l2 m2 hrec2 k r2 hk2
          exact absurd hk1
            (reconcile_mem_some repo bld l1 m1 hrec1 b2 (hperm.mem_iff.mpr hb2) k hc2 hke)
      | some r1 =>
        obtain ⟨b1, hb1, hc1, hke, hr1, hmax1⟩ := reconcile_some repo bld l1 m1 hrec1 k r1 hk1
        cases hk2 : m2 k with
        | none =>
          exact absurd hk2
            (reconcile_mem_some repo bld l2 m2 hrec2 b1 (hperm.mem_iff.mp hb1) k hc1 hke)
        | some r2 =>
          obtain ⟨b2, hb2, hc2, _, hr2, hmax2⟩ := reconcile_some repo bld l2 m2 hrec2 k r2 hk2
          have hb2' : b2 ∈ l1 := hperm.mem_iff.mpr hb2
          have hle1 : b1.endTime ≤ b2.endTime := hmax2 b1 (hperm.mem_iff.mp hb1) hc1
          have hle2 : b2.endTime ≤ b1.endTime := hmax1 b2 hb2' hc2
          have heq : b1 = b2 := hdist b1 hb1 b2 hb2' (hc1.trans hc2.symm) (le_antisymm hle1 hle2)
          rw [hr1, hr2, heq]
    rw [this]
  · intro k r hr
    rw [reconLookup_eq repo bld l1 m1 k hrec1] at hr
    exact reconcile_some repo bld l1 m1 hrec1 k r hr

/-- C3 witness: the amended order-independence evaluated on a concrete
two-build list with distinct build-end times. -/
theorem c3_amended_witness :
    reconcile "xrepo" exBld [exBuild1, exBuild2b] = reconcile "xrepo" exBld [exBuild2b, exBuild1] :=
  (c3_amended_order_independence "xrepo" exBld [exBuild1, exBuild2b] [exBuild2b, exBuild1]
    (by decide) (by decide) (by decide)).1

/-- C5 counterexample: a build with a mismatching ResultDB hostname and a
resolvable commit hash that loses the dedup comparison is silently discarded —
reconciliation completes without any fatal error — contradicting the claim
that validation precedes the dedup decision. -/
theorem c5_counterexample :
    exBadBuild.resultdbHostname ≠ resultDBHost ∧
    commitOf "xrepo" exBadBuild = "h1" ∧
    reconcileOk "xrepo" exBld [exBuild1, exBadBuild] = true ∧
    (reconLookup "xrepo" exBld [exBuild1, exBadBuild] "h1").map (·.id) = some 1 := by
  decide

/-- C5 (amended): validation happens only for builds that survive the dedup
comparison: a build with a resolvable commit hash that is not discarded as an
earlier-ended duplicate and whose embedded ResultDB hostname or builder name
mismatches makes reconciliation fail with a fatal, unrecoverable error; a
mismatching build that loses the dedup comparison is silently discarded. -/
theorem c5_amended_validation (repo : String) (bld : Builder) (m : BuildMap) (b : RawBuild)
    (hc : commitOf repo b ≠ "")
    (hnd : isDup m (commitOf repo b) b.endTime = false)
    (hbad : b.resultdbHostname ≠ resultDBHost ∨ b.builderName ≠ bld.name) :
    ∃ e, processBuild repo bld m b = .error e := by
  refine processBuild_err repo bld m b hc hnd ?_
  rintro ⟨ha, hb⟩
  rcases hbad with h | h
  · exact h ha
  · exact h hb

/-- C5 witness: the amended validation rule on the concrete mismatching build
against the empty map (where no dedup discard is possible). -/
theorem c5_amended_witness :
    ∃ e, processBuild "xrepo" exBld (fun _ => none) exBadBuild = .error e :=
  c5_amended_validation "xrepo" exBld (fun _ => none) exBadBuild (by decide)
    (isDup_of_none _ _ _ rfl) (Or.inl (by decide))

end Luci

namespace Luci

theorem collectUnits_allOk_length :
    ∀ (us : List URes) (ms : List BuildMap), collectUnits us = .allOk ms → ms.length = us.length := by
  intro us
  induction us with
  | nil =>
    intro ms h
    cases h
    rfl
  | cons u rest ih =>
    intro ms h
    cases u with
    | uerr e => cases h
    | ufatal e => cases h
    | uok m =>
      unfold collectUnits at h
      cases hcu : collectUnits rest with
      | firstFatal e => rw [hcu] at h; cases h
      | firstErr e => rw [hcu] at h; cases h
      | allOk ms' =>
        rw [hcu] at h
        cases h
        simp [ih ms' hcu]

theorem collectUnits_allOk_get :
    ∀ (us : List URes) (ms : List BuildMap), collectUnits us = .allOk ms →
      ∀ (i : Nat) (m : BuildMap), ms[i]? = some m → us[i]? = some (.uok m) := by
  intro us
  induction us with
  | nil =>
    intro ms h i m hm
    cases h
    simp at hm
  | cons u rest ih =>
    intro ms h i m hm
    cases u with
    | uerr e => cases h
    | ufatal e => cases h
    | uok m0 =>
      unfold collectUnits at h
      cases hcu : collectUnits rest with
      | firstFatal e => rw [hcu] at h; cases h
      | firstErr e => rw [hcu] at h; cases h
      | allOk ms' =>
        rw [hcu] at h
        cases h
        cases i with
        | zero =>
          simp at hm
          simp [hm]
        | succ j =>
          simp at hm ⊢
          exact ih ms' hcu j m hm

theorem collectUnits_firstErr :
    ∀ (us : List URes) (i : Nat) (e : String),
      (∀ j, j < i → ∃ m, us[j]? = some (.uok m)) → us[i]? = some (.uerr e) →
      collectUnits us = .firstErr e := by
  intro us
  induction us with
  | nil =>
    intro i e _ hi
    simp at hi
  | cons u rest ih =>
    intro i e hpre hi
    cases i with
    | zero =>
      simp at hi
      rw [hi]
      rfl
    | succ j =>
      obtain ⟨m, hm⟩ := hpre 0 (Nat.succ_pos j)
      simp at hm
      subst hm
      have hrest : collectUnits rest = .firstErr e := by
        refine ih j e (fun j' hj' => ?_) (by simpa using hi)
        obtain ⟨m', hm'⟩ := hpre (j' + 1) (Nat.succ_lt_succ hj')
        exact ⟨m', by simpa using hm'⟩
      unfold collectUnits
      rw [hrest]

theorem runUnit_uok (repo : String) (bld : Builder) (gb : String → Except String (List RawBuild))
    (m : BuildMap) (h : runUnit repo bld gb = .uok m) :
    ∃ builds, gb bld.name = .ok builds ∧ reconcile repo bld builds = .ok m := by
  unfold runUnit at h
  split at h
  · cases h
  · rename_i builds hgb
    split at h
    · cases h
    · rename_i m' hrc
      cases h
      exact ⟨builds, hgb, hrc⟩

theorem runBoard_done (repo : String) (lb : Except String (List Builder)) (commits : List Commit)
    (gb : String → Except String (List RawBuild)) (builders : List Builder)
    (results : List (List (Option BuildResult)))
    (h : runBoard repo lb commits gb = .done builders results) :
    lb = .ok builders ∧
    ∃ ms, collectUnits (builders.map (fun bld => runUnit repo bld gb)) = .allOk ms ∧
      results = assemble commits ms := by
  unfold runBoard at h
  split at h
  · cases h
  · rename_i bs
    split at h
    · cases h
    · cases h
    · rename_i ms hcu
      injection h with h1 h2
      subst h1
      subst h2
      exact ⟨rfl, ms, hcu, rfl⟩

end Luci

namespace Luci

/-- C1: for every dashboard successfully assembled by `ReadBoard`, the results
matrix has one row per builder and one column per commit, and every non-nil
cell carries the row's builder name, the column's commit hash, and the
column's commit time (stamped from the commit log during assembly, not taken
from build metadata). -/
theorem c1_board_invariants (repo : String) (lb : Except String (List Builder))
    (commits : List Commit) (gb : String → Except String (List RawBuild))
    (builders : List Builder) (results : List (List (Option BuildResult)))
    (h : runBoard repo lb commits gb = .done builders results) :
    results.length = builders.length ∧
    (∀ row ∈ results, row.length = commits.length) ∧
    (∀ (i j : Nat) (bld : Builder) (c : Commit) (row : List (Option BuildResult))
      (r : BuildResult), builders[i]? = some bld → commits[j]? = some c →
      results[i]? = some row → row[j]? = some (some r) →
      r.builder = bld.name ∧ r.commit = c.hash ∧ r.time = c.time) := by
  obtain ⟨hlb, ms, hcu, hres⟩ := runBoard_done repo lb commits gb builders results h
  subst hres
  refine ⟨?_, ?_, ?_⟩
  · simp only [assemble, List.length_map]
    rw [collectUnits_allOk_length _ _ hcu, List.length_map]
  · intro row hrow
    simp only [assemble] at hrow
    obtain ⟨m, hm, hrw⟩ := List.mem_map.mp hrow
    rw [← hrw, List.length_map]
  · intro i j bld c row r hbi hcj hri hrj
    simp only [assemble, List.getElem?_map] at hri
    cases hms : ms[i]? with
    | none => rw [hms] at hri; cases hri
    | some m =>
      rw [hms] at hri
      injection hri with hrow
      subst hrow
      rw [List.getElem?_map, hcj] at hrj
      injection hrj with hcell
      dsimp only at hcell
      cases hmc : m c.hash with
      | none => rw [hmc] at hcell; cases hcell
      | some r0 =>
        rw [hmc] at hcell
        injection hcell with hr0
        have hus := collectUnits_allOk_get _ _ hcu i m hms
        rw [List.getElem?_map, hbi] at hus
        injection hus with hu
        obtain ⟨builds, _, hrc⟩ := runUnit_uok repo bld gb m hu
        obtain ⟨b, _, hcb, _, hmk, _⟩ := reconcile_some repo bld builds m hrc c.hash r0 hmc
        subst hr0
        subst hmk
        exact ⟨rfl, hcb, rfl⟩

/-- C1 witness: the invariants instantiated on a concrete one-builder,
two-commit environment with one successful build. -/
theorem c1_witness :
    exResults.length = [exBld].length ∧
    (∀ row ∈ exResults, row.length = exCommitList.length) ∧
    (∀ (i j : Nat) (bld : Builder) (c : Commit) (row : List (Option BuildResult))
      (r : BuildResult), [exBld][i]? = some bld → exCommitList[j]? = some c →
      exResults[i]? = some row → row[j]? = some (some r) →
      r.builder = bld.name ∧ r.commit = c.hash ∧ r.time = c.time) :=
  c1_board_invariants "xrepo" (.ok [exBld]) exCommitList exGb [exBld] exResults (by decide)

end Luci

namespace Luci

/-- C8 counterexample: with one builder whose build fetch fails, `ReadBoard`
does return the error and leaves the matrix unassembled, but `main` discards
the returned error (the call's result is not checked) and proceeds into the
extraction loop, where indexing the nil results matrix panics — the caller
does not treat the returned error as fatal. -/
theorem c8_counterexample :
    runBoard "xrepo" (.ok [exBld]) [] (fun _ => .error "boom") = .errReturn [exBld] "boom" ∧
    mainModel "TestFoo" "xrepo" (.ok [exBld]) [] (fun _ => .error "boom") (fun _ => []) =
      .panicked "index out of range" ∧
    isFatalLog (mainModel "TestFoo" "xrepo" (.ok [exBld]) [] (fun _ => .error "boom")
      (fun _ => [])) = false := by
  decide

/-- C8 (amended): if a concurrent per-builder unit of `ReadBoard` fails with
an error while every unit before it succeeds, `ReadBoard` returns that first
error as its sole error and the `Results` matrix is never assembled
(`errReturn` carries no matrix, modelling the nil slice); `main`, however,
ignores the returned error and proceeds to the extraction loop, which panics
indexing the nil matrix, instead of performing fatal error handling. -/
theorem c8_amended_error_flow (testFlag repo : String) (builders : List Builder)
    (commits : List Commit) (gb : String → Except String (List RawBuild))
    (query : String → List TestResult) (i : Nat) (e : String)
    (htest : testFlag ≠ "")
    (hpre : ∀ j, j < i → ∃ m, (builders.map (fun bld => runUnit repo bld gb))[j]? = some (.uok m))
    (hi : (builders.map (fun bld => runUnit repo bld gb))[i]? = some (.uerr e)) :
    runBoard repo (.ok builders) commits gb = .errReturn builders e ∧
    mainModel testFlag repo (.ok builders) commits gb query = .panicked "index out of range" := by
  have hcu : collectUnits (builders.map (fun bld => runUnit repo bld gb)) = .firstErr e :=
    collectUnits_firstErr _ i e hpre hi
  have hrb : runBoard repo (.ok builders) commits gb = .errReturn builders e := by
    unfold runBoard
    dsimp only
    rw [hcu]
  refine ⟨hrb, ?_⟩
  have hne : builders ≠ [] := by
    intro hnil
    subst hnil
    simp at hi
  have hemp : builders.isEmpty = false := by
    cases builders with
    | nil => exact absurd rfl hne
    | cons a l => rfl
  unfold mainModel
  rw [if_neg htest, hrb]
  simp [hemp]

/-- C8 witness: the amended error flow on the concrete failing environment. -/
theorem c8_amended_witness :
    runBoard "xrepo" (.ok [exBld]) [] (fun _ => .error "gbfail") = .errReturn [exBld] "gbfail" ∧
    mainModel "TestBar" "xrepo" (.ok [exBld]) [] (fun _ => .error "gbfail") (fun _ => []) =
      .panicked "index out of range" :=
  c8_amended_error_flow "TestBar" "xrepo" [exBld] [] (fun _ => .error "gbfail") (fun _ => []) 0
    "gbfail" (by decide) (fun j hj => absurd hj (Nat.not_lt_zero j)) (by rfl)

end Luci

namespace Luci

theorem takeWhile_all_true {α : Type} (P : α → Bool) (l : List α) (h : ∀ x ∈ l, P x = true) :
    l.takeWhile P = l := by
  induction l with
  | nil => rfl
  | cons a l ih =>
    rw [List.takeWhile_cons, h a (List.mem_cons_self a l), if_pos rfl]
    rw [ih (fun x hx => h x (List.mem_cons_of_mem a hx))]

theorem takeWhile_append_stop {α : Type} (P : α → Bool) (l1 l2 : List α)
    (h : ∃ x ∈ l1, P x = false) : (l1 ++ l2).takeWhile P = l1.takeWhile P := by
  induction l1 with
  | nil =>
    obtain ⟨x, hx, _⟩ := h
    simp at hx
  | cons a l ih =>
    cases hPa : P a with
    | false => simp [List.takeWhile_cons, hPa]
    | true =>
      rw [List.cons_append, List.takeWhile_cons, hPa, List.takeWhile_cons, hPa]
      obtain ⟨x, hx, hPx⟩ := h
      rcases List.mem_cons.mp hx with rfl | hxl
      · rw [hPa] at hPx; cases hPx
      · rw [ih ⟨x, hxl, hPx⟩]

theorem takeWhile_append_pass {α : Type} (P : α → Bool) (l1 l2 : List α)
    (h : ∀ x ∈ l1, P x = true) : (l1 ++ l2).takeWhile P = l1 ++ l2.takeWhile P := by
  induction l1 with
  | nil => rfl
  | cons a l ih =>
    rw [List.cons_append, List.takeWhile_cons, h a (List.mem_cons_self a l), if_pos rfl,
      List.cons_append]
    rw [ih (fun x hx => h x (List.mem_cons_of_mem a hx))]

theorem takeWhile_eq_filter_of_sorted {α : Type} (R : α → α → Prop) (P : α → Bool) (l : List α)
    (hl : l.Pairwise R) (hP : ∀ a b, R a b → P b = true → P a = true) :
    l.takeWhile P = l.filter P := by
  induction l with
  | nil => rfl
  | cons a l ih =>
    rw [List.pairwise_cons] at hl
    obtain ⟨hra, hl'⟩ := hl
    cases hPa : P a with
    | true => rw [List.takeWhile_cons, hPa, if_pos rfl, List.filter_cons_of_pos hPa, ih hl']
    | false =>
      rw [List.takeWhile_cons, hPa, if_neg Bool.false_ne_true,
        List.filter_cons_of_neg (by rw [hPa]; exact Bool.false_ne_true)]
      have hall : ∀ x ∈ l, ¬ P x = true := by
        intro x hx hPx
        rw [hP a x (hra x hx) hPx] at hPa
        cases hPa
      rw [List.filter_eq_nil_iff.mpr hall]

theorem pageScan_spec (since : Int) (l : List Commit) :
    pageScan since l = (l.takeWhile (fun c => decide (since ≤ c.time)),
      l.any (fun c => decide (c.time < since))) := by
  induction l with
  | nil => rfl
  | cons c cs ih =>
    unfold pageScan
    by_cases h : c.time < since
    · rw [if_pos h]
      have hp : decide (since ≤ c.time) = false := decide_eq_false (Int.not_le.mpr h)
      simp [List.takeWhile_cons, hp, h]
    · rw [if_neg h]
      have hp : decide (since ≤ c.time) = true := decide_eq_true (Int.not_lt.mp h)
      simp [List.takeWhile_cons, hp, h, ih]

theorem listCommitsModel_chained (since : Int) :
    ∀ pages : List LogPage, (∀ p ∈ pages.dropLast, p.nextPageToken ≠ "") →
      listCommitsModel since pages =
        ((pages.map LogPage.commits).flatten).takeWhile (fun c => decide (since ≤ c.time)) := by
  intro pages
  induction pages with
  | nil => intro _; rfl
  | cons p ps ih =>
    intro hchain
    unfold listCommitsModel
    rw [pageScan_spec]
    dsimp only
    by_cases hstop : p.commits.any (fun c => decide (c.time < since)) = true
    · rw [if_pos hstop]
      obtain ⟨c, hc, hdec⟩ := List.any_eq_true.mp hstop
      have hPfalse : (fun c : Commit => decide (since ≤ c.time)) c = false := by
        dsimp only
        exact decide_eq_false (Int.not_le.mpr (of_decide_eq_true hdec))
      rw [List.map_cons, List.flatten_cons, takeWhile_append_stop _ _ _ ⟨c, hc, hPfalse⟩]
    · rw [if_neg hstop]
      have hall : ∀ x ∈ p.commits, (fun c : Commit => decide (since ≤ c.time)) x = true := by
        intro x hx
        dsimp only
        rcases Bool.eq_false_or_eq_true (decide (x.time < since)) with ht | hf
        · exact absurd (List.any_eq_true.mpr ⟨x, hx, ht⟩) hstop
        · exact decide_eq_true (Int.not_lt.mp (of_decide_eq_false hf))
      rw [List.map_cons, List.flatten_cons, takeWhile_append_pass _ _ _ hall]
      cases ps with
      | nil =>
        by_cases ht : p.nextPageToken ≠ "" <;>
          simp [ht, listCommitsModel, takeWhile_all_true _ _ hall]
      | cons q qs =>
        have ht : p.nextPageToken ≠ "" := by
          apply hchain
          rw [List.dropLast_cons₂]
          exact List.mem_cons_self p _
        rw [if_pos ht, takeWhile_all_true _ _ hall]
        have hchain' : ∀ p' ∈ (q :: qs).dropLast, p'.nextPageToken ≠ "" := by
          intro p' hp'
          apply hchain
          rw [List.dropLast_cons₂]
          exact List.mem_cons_of_mem p hp'
        rw [ih hchain']

/-- C4: over any upstream log whose pages are token-chained and whose
concatenated commits are in strictly descending time order, `ListCommits`
returns exactly the prefix of commits with time at or after `since`
(a commit with time exactly `since` is included), and the first commit
strictly earlier than `since` halts the entire listing — the result equals
the global filter by `since ≤ time`, across page boundaries. -/
theorem c4_listCommits_boundary (since : Int) (pages : List LogPage)
    (hchain : ∀ p ∈ pages.dropLast, p.nextPageToken ≠ "")
    (hdesc : ((pages.map LogPage.commits).flatten).Pairwise (fun a b => b.time < a.time)) :
    listCommitsModel since pages =
      ((pages.map LogPage.commits).flatten).takeWhile (fun c => decide (since ≤ c.time)) ∧
    listCommitsModel since pages =
      ((pages.map LogPage.commits).flatten).filter (fun c => decide (since ≤ c.time)) := by
  have h1 := listCommitsModel_chained since pages hchain
  refine ⟨h1, ?_⟩
  rw [h1]
  refine takeWhile_eq_filter_of_sorted _ _ _ hdesc ?_
  intro a b hr hb
  exact decide_eq_true (le_trans (of_decide_eq_true hb) (le_of_lt hr))

/-- C4 witness: the time-boundary behaviour on a concrete two-page log where
the second commit's time equals `since` (included) and a later page's commit
is strictly earlier (halts the listing across pages). -/
theorem c4_witness :
    listCommitsModel 5 exPages =
      ((exPages.map LogPage.commits).flatten).takeWhile (fun c => decide (5 ≤ c.time)) ∧
    listCommitsModel 5 exPages =
      ((exPages.map LogPage.commits).flatten).filter (fun c => decide (5 ≤ c.time)) :=
  c4_listCommits_boundary 5 exPages (by decide) (by decide)

/-- C9: the gitiles log request built by `ListCommits` targets the fixed
branch `master` whenever the repo is not exactly `"go"` — the branch argument
is ignored — and targets the given branch exactly when the repo is `"go"`. -/
theorem c9_branch_selection (repo goBranch : String) :
    (repo ≠ "go" → listCommitsCommittish repo goBranch = "refs/heads/master") ∧
    (repo = "go" → listCommitsCommittish repo goBranch = "refs/heads/" ++ goBranch) := by
  constructor
  · intro h
    rw [listCommitsCommittish, listCommitsBranch, if_neg h]
    rfl
  · intro h
    rw [listCommitsCommittish, listCommitsBranch, if_pos h]

/-- C9 witness: a non-`go` repo with a non-`master` branch argument still
requests `master`; the `go` repo requests the given branch. -/
theorem c9_witness :
    listCommitsCommittish "tools" "release-branch.go1.22" = "refs/heads/master" ∧
    listCommitsCommittish "go" "release-branch.go1.22" = "refs/heads/release-branch.go1.22" :=
  ⟨(c9_branch_selection "tools" "release-branch.go1.22").1 (by decide),
   (c9_branch_selection "go" "release-branch.go1.22").2 rfl⟩

/-- C10: `NewLUCIClient` panics (modelled as an error) for every `nProc`
less than 1, and for every `nProc` at least 1 it does not panic and returns a
client whose concurrency bound equals `nProc`. -/
theorem c10_nproc_guard (n : Int) :
    (n < 1 → ∃ e, newLUCIClientNProc n = .error e) ∧
    (1 ≤ n → newLUCIClientNProc n = .ok n) := by
  constructor
  · intro h
    exact ⟨"nProc non-positive, want 1 or higher", by rw [newLUCIClientNProc, if_pos h]⟩
  · intro h
    rw [newLUCIClientNProc, if_neg (Int.not_lt.mpr h)]

/-- C10 witness: the guard evaluated at 0 (panics) and at 4 (returns 4). -/
theorem c10_witness :
    (∃ e, newLUCIClientNProc 0 = .error e) ∧ newLUCIClientNProc 4 = .ok 4 :=
  ⟨(c10_nproc_guard 0).1 (by decide), (c10_nproc_guard 4).2 (by decide)⟩

end Luci

namespace Luci

theorem findSome?_eq_some_split {α β : Type} (f : α → Option β) :
    ∀ (l : List α) (b : β), l.findSome? f = some b →
      ∃ l1 x l2, l = l1 ++ x :: l2 ∧ f x = some b ∧ ∀ y ∈ l1, f y = none := by
  intro l
  induction l with
  | nil => intro b h; cases h
  | cons a l ih =>
    intro b h
    rw [List.findSome?_cons] at h
    cases hfa : f a with
    | some v =>
      rw [hfa] at h
      injection h with hv
      exact ⟨[], a, l, rfl, by rw [hfa, hv], by simp⟩
    | none =>
      rw [hfa] at h
      obtain ⟨l1, x, l2, rfl, hx, hnone⟩ := ih b h
      refine ⟨a :: l1, x, l2, rfl, hx, ?_⟩
      intro y hy
      rcases List.mem_cons.mp hy with rfl | hyl
      · exact hfa
      · exact hnone y hyl

theorem findSome?_eq_none_all {α β : Type} (f : α → Option β) :
    ∀ l : List α, l.findSome? f = none → ∀ x ∈ l, f x = none := by
  intro l
  induction l with
  | nil => intro _ x hx; simp at hx
  | cons a l ih =>
    intro h x hx
    rw [List.findSome?_cons] at h
    cases hfa : f a with
    | some v => rw [hfa] at h; cases h
    | none =>
      rw [hfa] at h
      rcases List.mem_cons.mp hx with rfl | hxl
      · exact hfa
      · exact ih h x hxl

/-- C6 counterexample: a FAILURE build that does have a failure link whose
name contains `"(combined output)"` — with an empty `url` field — and an
output log named `"stderr"`: the code resolves the log URL to the stderr view
URL, not to the existing combined-output link, refuting the claim that the
stderr fallback applies only when no such link exists. -/
theorem c6_counterexample :
    firstCombined exFailBuild.failureLinks = some "" ∧
    resolveLogURL exFailBuild = "V" ∧
    ("V" : String) ≠ "" := by
  decide

/-- C6 (amended): for FAILURE builds, the log URL is the URL of the first
`"(combined output)"` failure link when that URL is non-empty; when the
resolved URL is empty — no such link, or the link's URL field is empty — it is
the view URL of the first output log named `"stderr"`.  Independently, the
step-log URL comes from the first step, scanning from last to first, that has
FAILURE status and a log named `"stderr"` or `"output"` (its first such log's
view URL); each scan stops at its first match. -/
theorem c6_amended_log_resolution (bld : Builder) (b : RawBuild) (c g : String)
    (hf : b.status = .FAILURE) :
    (mkResult bld b c g).logURL = resolveLogURL b ∧
    (mkResult bld b c g).stepLogURL = (stepLogScan b.steps).getD "" ∧
    (∀ u, firstCombined b.failureLinks = some u → u ≠ "" → resolveLogURL b = u) ∧
    ((firstCombined b.failureLinks).getD "" = "" →
      resolveLogURL b =
        ((b.outputLogs.find? (fun l => l.name == "stderr")).map LogEntry.viewUrl).getD "") ∧
    (∀ u, stepLogScan b.steps = some u →
      ∃ l1 x l2, b.steps = l1 ++ x :: l2 ∧ stepLogOf x = some u ∧ ∀ y ∈ l2, stepLogOf y = none) ∧
    (stepLogScan b.steps = none → ∀ x ∈ b.steps, stepLogOf x = none) := by
  refine ⟨by simp [mkResult, hf], by simp [mkResult, hf], ?_, ?_, ?_, ?_⟩
  · intro u hu hne
    rw [resolveLogURL, hu]
    simp [hne]
  · intro hempty
    rw [resolveLogURL, hempty]
    simp
  · intro u hu
    rw [stepLogScan] at hu
    obtain ⟨l1, x, l2, hrev, hx, hnone⟩ := findSome?_eq_some_split stepLogOf b.steps.reverse u hu
    refine ⟨l2.reverse, x, l1.reverse, ?_, hx, ?_⟩
    · rw [← List.reverse_reverse b.steps, hrev]
      simp
    · intro y hy
      exact hnone y (List.mem_reverse.mp hy)
  · intro hn x hx
    rw [stepLogScan] at hn
    exact findSome?_eq_none_all stepLogOf b.steps.reverse hn x (List.mem_reverse.mpr hx)

/-- C6 witness: the amended log-resolution rules instantiated on the concrete
FAILURE build (empty-URL combined-output link, stderr output log, and a step
list whose last FAILURE step with a matching log is found by the backward
scan). -/
theorem c6_amended_witness :
    (mkResult exBld exFailBuild "h1" "").logURL = resolveLogURL exFailBuild ∧
    (mkResult exBld exFailBuild "h1" "").stepLogURL = (stepLogScan exFailBuild.steps).getD "" ∧
    (∀ u, firstCombined exFailBuild.failureLinks = some u → u ≠ "" →
      resolveLogURL exFailBuild = u) ∧
    ((firstCombined exFailBuild.failureLinks).getD "" = "" →
      resolveLogURL exFailBuild =
        ((exFailBuild.outputLogs.find? (fun l => l.name == "stderr")).map LogEntry.viewUrl).getD "") ∧
    (∀ u, stepLogScan exFailBuild.steps = some u →
      ∃ l1 x l2, exFailBuild.steps = l1 ++ x :: l2 ∧ stepLogOf x = some u ∧
        ∀ y ∈ l2, stepLogOf y = none) ∧
    (stepLogScan exFailBuild.steps = none → ∀ x ∈ exFailBuild.steps, stepLogOf x = none) :=
  c6_amended_log_resolution exBld exFailBuild "h1" "" (by decide)

end Luci

namespace Luci

/-- C7: in the extraction phase, SKIP results produce no CSV line and every
other result produces exactly one; every emitted line comes from a non-SKIP
result, carries the builder-name column exactly when more than one builder is
in scope (6 fields, builder at index 2, versus 5 fields), and fills the
pass-duration field with an empty fail-duration field exactly on PASS, with
the two duration fields swapped on every non-PASS status. -/
theorem c7_csv_shape (builders : List Builder) (results : List (List (Option BuildResult)))
    (query : String → List TestResult) :
    (∀ (multi : Bool) (r : BuildResult) (bn : String) (trs : List TestResult),
      (emitLines multi r bn trs).length =
        (trs.filter (fun t => decide (t.status ≠ TestStatus.SKIP))).length) ∧
    (extractorOutput builders results query =
      extractorOutput builders results
        (fun inv => (query inv).filter (fun t => decide (t.status ≠ TestStatus.SKIP)))) ∧
    (∀ l ∈ extractorOutput builders results query,
      ∃ r bn t, t.status ≠ TestStatus.SKIP ∧
        l = csvLine (decide (1 < builders.length)) r bn t ∧
        (1 < builders.length → l.length = 6 ∧ l[2]? = some bn) ∧
        (¬ 1 < builders.length → l.length = 5) ∧
        (t.status = TestStatus.PASS →
          l = [shortHash r.commit, toString r.time] ++
            (if 1 < builders.length then [bn] else []) ++
            [t.status.render, toString t.durationSec, ""]) ∧
        (t.status ≠ TestStatus.PASS →
          l = [shortHash r.commit, toString r.time] ++
            (if 1 < builders.length then [bn] else []) ++
            [t.status.render, "", toString t.durationSec])) := by
  have hfil : ∀ (multi : Bool) (r : BuildResult) (bn : String) (trs : List TestResult),
      emitLines multi r bn (trs.filter (fun t => decide (t.status ≠ TestStatus.SKIP))) =
        emitLines multi r bn trs := by
    intro multi r bn trs
    rw [emitLines, emitLines, List.filter_filter]
    congr 1
    simp [Bool.and_self]
  refine ⟨?_, ?_, ?_⟩
  · intro multi r bn trs
    rw [emitLines, List.length_map]
  · rw [extractorOutput, extractorOutput]
    congr 1
    apply List.map_congr_left
    intro br _
    congr 1
    apply List.map_congr_left
    intro cell _
    cases cell with
    | none => rfl
    | some r => exact (hfil _ r br.1.name (query r.invocationID)).symm
  · intro l hl
    rw [extractorOutput] at hl
    obtain ⟨L, hL, hlL⟩ := List.mem_flatten.mp hl
    obtain ⟨br, _, rfl⟩ := List.mem_map.mp hL
    obtain ⟨L2, hL2, hlL2⟩ := List.mem_flatten.mp hlL
    obtain ⟨cell, _, rfl⟩ := List.mem_map.mp hL2
    cases cell with
    | none => simp at hlL2
    | some r =>
      dsimp only at hlL2
      rw [emitLines] at hlL2
      obtain ⟨t, ht, rfl⟩ := List.mem_map.mp hlL2
      have htSkip : t.status ≠ TestStatus.SKIP := by
        have hmem := List.mem_filter.mp ht
        simpa using hmem.2
      refine ⟨r, br.1.name, t, htSkip, rfl, ?_, ?_, ?_, ?_⟩
      · intro hm
        constructor
        · simp [csvLine, hm]
          by_cases hp : t.status = TestStatus.PASS <;> simp [hp]
        · simp [csvLine, hm]
      · intro hm
        simp [csvLine, hm]
        by_cases hp : t.status = TestStatus.PASS <;> simp [hp]
      · intro hp
        simp [csvLine, hp]
      · intro hp
        by_cases hm : 1 < builders.length <;> simp [csvLine, hp, hm]

end Luci

namespace Luci

/-- C7 witness: the CSV-shape properties instantiated on a concrete
one-builder environment whose query returns PASS, SKIP and FAIL results. -/
theorem c7_witness :
    (∀ (multi : Bool) (r : BuildResult) (bn : String) (trs : List TestResult),
      (emitLines multi r bn trs).length =
        (trs.filter (fun t => decide (t.status ≠ TestStatus.SKIP))).length) ∧
    (extractorOutput [exBld] exResults exQuery =
      extractorOutput [exBld] exResults
        (fun inv => (exQuery inv).filter (fun t => decide (t.status ≠ TestStatus.SKIP)))) ∧
    (∀ l ∈ extractorOutput [exBld] exResults exQuery,
      ∃ r bn t, t.status ≠ TestStatus.SKIP ∧
        l = csvLine (decide (1 < ([exBld] : List Builder).length)) r bn t ∧
        (1 < ([exBld] : List Builder).length → l.length = 6 ∧ l[2]? = some bn) ∧
        (¬ 1 < ([exBld] : List Builder).length → l.length = 5) ∧
        (t.status = TestStatus.PASS →
          l = [shortHash r.commit, toString r.time] ++
            (if 1 < ([exBld] : List Builder).length then [bn] else []) ++
            [t.status.render, toString t.durationSec, ""]) ∧
        (t.status ≠ TestStatus.PASS →
          l = [shortHash r.commit, toString r.time] ++
            (if 1 < ([exBld] : List Builder).length then [bn] else []) ++
            [t.status.render, "", toString t.durationSec])) :=
  c7_csv_shape [exBld] exResults exQuery

end Luci
